import Mathlib

/-!
Verification development for the AXIS2 virtual file system (package `axis2`).

The definitions below are a shallow embedding of the Go source:
  * `errors.go`  — the error taxonomy (`ErrTyp`, `Error`, `wrapError`)
  * `path.go`    — `trimLastPath`, `validatePath`
  * `axis2.go`   — the mount table (`FileSystem`, `Mount`, `Unmount`, `SwapMount`),
    the resolution engine (`GetDSsAt`, `GetDSAt`, `isMP`, `mountSubset`) and the
    namespace facade (`Delete`, `List`, `ListFiles`, `Read`, `ReadAll`, `Write`,
    `Append`, `WriteAll`).

Modelling conventions:
  * Go's `(T, error)` returns become `Option T × Option AxisError` pairs
    (`nil` ↦ `none`).
  * A Go `DataSource` is an opaque interface value probed with type assertions
    for the `Dir` and `File` interfaces.  It is modelled by the inductive `DS`
    carrying two capability booleans (results of the two type assertions) and
    the observable behaviour of each interface method.  Method results that the
    core never constructs itself (streams, backend errors) are abstract fields.
  * Go stores `[]*source` with the *same pointer* appended to both the read and
    write views; `SwapMount` mutates the pointed-to struct in place.  To keep
    this aliasing observable the model keeps one `store : List Source` and the
    two views as lists of indices into it.
  * The carried raw payload of a wrapped backend error is not modelled beyond
    its existence (`BErr`); the core never inspects it.
-/

namespace Axis2

/-- A list of names.  (Used in signatures of `FileSystem.*` declarations,
where the bare name `List` would resolve to `FileSystem.List`.) -/
abbrev Names := List String

/-- A byte slice, each byte a `Nat`. -/
abbrev Bytes := List Nat

/-- Error kinds, from `errors.go` (`ErrNotFound`, `ErrReadOnly`, `ErrBadAction`,
`ErrBadPath`, `ErrRaw`). -/
inductive ErrTyp where
  | notFound
  | readOnly
  | badAction
  | badPath
  | raw
deriving DecidableEq, Repr

/-- The `axis2.Error` struct: a path plus an error kind.  (The `Err` payload
carried when `Typ == ErrRaw` is never inspected by the core and is not
modelled.) -/
structure AxisError where
  path : String
  typ : ErrTyp
deriving DecidableEq, Repr

/-- A backend-produced Go `error` value, as far as `wrapError` can distinguish
them: an `*axis2.Error`, an `*os.PathError` (whose cause may or may not be
`os.ErrNotExist`), or anything else. -/
inductive BErr where
  | axis (e : AxisError)
  | osPath (notExist : Bool)
  | other
deriving DecidableEq, Repr

/-- `wrapError` from `errors.go`: `nil` stays `nil`; an `*Error` gets its `Path`
field overwritten; an `*os.PathError` caused by `os.ErrNotExist` becomes
`ErrNotFound`, any other `*os.PathError` is unwrapped and rewrapped as `ErrRaw`;
anything else is wrapped as `ErrRaw`. -/
def wrapError (err : Option BErr) (path : String) : Option AxisError :=
  match err with
  | none => none
  | some (.axis e) => some { e with path := path }
  | some (.osPath true) => some ⟨path, .notFound⟩
  | some (.osPath false) => some ⟨path, .raw⟩
  | some .other => some ⟨path, .raw⟩

/-- The result of `ioutil.ReadAll` on the stream returned by `File.Read`:
the bytes transferred plus the error (if any) that ended the transfer. -/
structure Reader where
  content : List Nat
  rerr : Option BErr
deriving Repr

/-- The observable behaviour of the stream returned by `File.Write` /
`File.Append`: the error (if any) produced by writing a given byte slice. -/
structure Writer where
  werr : List Nat → Option BErr

/-- Flag for `Dir.Child`: `CreateNone`. -/
def CreateNone : Nat := 0
/-- Flag for `Dir.Child`: `CreateDir`. -/
def CreateDir : Nat := 1
/-- Flag for `Dir.Child`: `CreateFile`. -/
def CreateFile : Nat := 2

/-- A `DataSource`: an opaque value that may implement the `Dir` interface
(`isDir`, with methods `Child`, `Delete`, `List` modelled by `child`, `delRes`,
`children`) and/or the `File` interface (`isFile`, with methods `Read`,
`Write`, `Append`, `Size` modelled by `fread`, `fwrite`, `fappend`, `fsize`).
When a capability boolean is `false` the corresponding method fields are
irrelevant (the Go type assertion fails before they could be called). -/
inductive DS where
  | mk (isDir : Bool) (isFile : Bool)
      (child : String → Nat → Option DS)
      (delRes : String → Option BErr)
      (children : List String)
      (fread : Option Reader × Option BErr)
      (fwrite : Option Writer × Option BErr)
      (fappend : Option Writer × Option BErr)
      (fsize : Int)

/-- Result of the Go type assertion `ds.(Dir)`. -/
def DS.isDir : DS → Bool
  | .mk d _ _ _ _ _ _ _ _ => d

/-- Result of the Go type assertion `ds.(File)`. -/
def DS.isFile : DS → Bool
  | .mk _ f _ _ _ _ _ _ _ => f

/-- `Dir.Child(id, create)`; `none` models a `nil` return. -/
def DS.child : DS → String → Nat → Option DS
  | .mk _ _ c _ _ _ _ _ _ => c

/-- The error result of `Dir.Delete(id)`; `none` models a `nil` error. -/
def DS.delRes : DS → String → Option BErr
  | .mk _ _ _ d _ _ _ _ _ => d

/-- `Dir.List()`. -/
def DS.children : DS → List String
  | .mk _ _ _ _ l _ _ _ _ => l

/-- `File.Read()` as a (stream, error) pair. -/
def DS.fread : DS → Option Reader × Option BErr
  | .mk _ _ _ _ _ r _ _ _ => r

/-- `File.Write()` as a (stream, error) pair. -/
def DS.fwrite : DS → Option Writer × Option BErr
  | .mk _ _ _ _ _ _ w _ _ => w

/-- `File.Append()` as a (stream, error) pair. -/
def DS.fappend : DS → Option Writer × Option BErr
  | .mk _ _ _ _ _ _ _ a _ => a

/-- `File.Size()`. -/
def DS.fsize : DS → Int
  | .mk _ _ _ _ _ _ _ _ s => s

/-! ## `path.go` -/

/-- Helper for `trimLastPath`: split a character list at its *last* `'/'`,
returning the parts before and after it, or `none` when no slash occurs
(Go's `strings.LastIndex(path, "/") == -1`). -/
def trimLastAux : List Char → Option (List Char × List Char)
  | [] => none
  | c :: cs =>
    match trimLastAux cs with
    | some (pre, post) => some (c :: pre, post)
    | none => if c = '/' then some ([], cs) else none

/-- `trimLastPath` from `path.go`: split a raw path string at the last slash
into `(path[:i], path[i+1:])`, or `("", path)` when it has no slash. -/
def trimLastPath (path : String) : String × String :=
  match trimLastAux path.toList with
  | some (pre, post) => (String.mk pre, String.mk post)
  | none => ("", path)

/-- The reserved characters rejected by `validatePath`
(Go `strings.ContainsAny(path, "<>?*|:\"\\")`). -/
def reservedChars : List Char := ['<', '>', '?', '*', '|', ':', '"', '\\']

/-- Helper modelling Go's `strings.Split(path, "/")` on the character list. -/
def splitSlashAux : List Char → List Char → List String
  | [], acc => [String.mk acc]
  | c :: cs, acc =>
    if c = '/' then String.mk acc :: splitSlashAux cs []
    else splitSlashAux cs (acc ++ [c])

/-- `strings.Split(path, "/")` (for the non-empty paths it is applied to). -/
def splitSlash (path : String) : List String :=
  splitSlashAux path.toList []

/-- `validatePath` from `path.go`: `""` is the root (empty segment list); any
reserved character or a `"."`/`".."` segment makes the path invalid (`nil`,
here `none`); empty segments from repeated/leading/trailing slashes are
dropped. -/
def validatePath (path : String) : Option (List String) :=
  if path = "" then some []
  else if path.toList.any (fun c => reservedChars.contains c) then none
  else
    let dirs := splitSlash path
    if dirs.any (fun d => d = ".." || d = ".") then none
    else some (dirs.filter (fun d => d ≠ ""))

/-! ## Mount table -/

/-- The `source` struct: a mount point (segment sequence) and the mounted
data source. -/
structure Source where
  mp : List String
  ds : DS

/-- The `FileSystem` struct.  Go keeps `r, w []*source` where the *same
pointer* may sit in both slices; the model keeps the pointed-to structs in
`store` and the two views as index lists, so in-place mutation by
`SwapMount`/`remount` stays shared between the views exactly as in Go. -/
structure FileSystem where
  store : List Source
  r : List Nat
  w : List Nat

/-- The zero value of `FileSystem`: an empty file system ready to use. -/
def zeroFS : FileSystem := ⟨[], [], []⟩

/-- The read view `fs.r` as the list of `source` values it points to. -/
def FileSystem.readSources (fs : FileSystem) : List Source :=
  fs.r.filterMap (fun i => fs.store[i]?)

/-- The write view `fs.w` as the list of `source` values it points to. -/
def FileSystem.writeSources (fs : FileSystem) : List Source :=
  fs.w.filterMap (fun i => fs.store[i]?)

/-- `sources` selection used throughout `axis2.go`: the read view when
`r == true`, else the write view. -/
def FileSystem.view (fs : FileSystem) (r : Bool) : List Source :=
  if r then fs.readSources else fs.writeSources

/-- `Mount` from `axis2.go`: validate the path (`ErrBadPath` on failure),
require that the item implements `File` or `Dir` (`ErrBadAction` otherwise),
then append one new `source` shared by the read view and — when `rw` — the
write view. -/
def FileSystem.Mount (fs : FileSystem) (path : String) (ds : DS) (rw : Bool) :
    FileSystem × Option AxisError :=
  match validatePath path with
  | none => (fs, some ⟨path, .badPath⟩)
  | some dirs =>
    if !(ds.isFile || ds.isDir) then
      (fs, some ⟨path, .badAction⟩)
    else
      ({ store := fs.store ++ [⟨dirs, ds⟩]
         r := fs.r ++ [fs.store.length]
         w := if rw then fs.w ++ [fs.store.length] else fs.w }, none)

/-- The `unmount` helper: drop every source whose mount point equals `dirs`
(the Go loop compares lengths then segments elementwise and compacts the slice
in place, which removes exactly the full matches preserving order).  An index
not backed by the store (never produced by the API) is kept. -/
def unmountIdx (store : List Source) (dirs : List String) : List Nat → List Nat
  | [] => []
  | i :: rest =>
    match store[i]? with
    | some s =>
      if s.mp = dirs then unmountIdx store dirs rest
      else i :: unmountIdx store dirs rest
    | none => i :: unmountIdx store dirs rest

/-- `Unmount` from `axis2.go`: validate the path (`ErrBadPath` on failure),
then remove every matching binding from the write view and, when `r`, from the
read view as well. -/
def FileSystem.Unmount (fs : FileSystem) (path : String) (r : Bool) :
    FileSystem × Option AxisError :=
  match validatePath path with
  | none => (fs, some ⟨path, .badPath⟩)
  | some dirs =>
    ({ fs with
        w := unmountIdx fs.store dirs fs.w
        r := if r then unmountIdx fs.store dirs fs.r else fs.r }, none)

/-- The `remount` helper: find the first source in the given view whose mount
point equals `dirs`, replace its data source *in the shared store* and return
the old data source; `none` when no binding matches. -/
def remountIdx (dirs : List String) (ds : DS) (store : List Source) :
    List Nat → List Source × Option DS
  | [] => (store, none)
  | i :: rest =>
    match store[i]? with
    | some s =>
      if s.mp = dirs then (store.set i ⟨s.mp, ds⟩, some s.ds)
      else remountIdx dirs ds store rest
    | none => remountIdx dirs ds store rest

/-- `SwapMount` from `axis2.go`: validate the path and the capability of the
new item (returning `nil` on failure), then replace the first matching binding
of the read view and — when `rw` — of the write view, returning the data
source displaced from the read view.  The replacement mutates the shared
store, as the Go code mutates the shared `*source` structs. -/
def FileSystem.SwapMount (fs : FileSystem) (path : String) (ds : DS) (rw : Bool) :
    FileSystem × Option DS :=
  match validatePath path with
  | none => (fs, none)
  | some dirs =>
    if !(ds.isFile || ds.isDir) then (fs, none)
    else
      let res := remountIdx dirs ds fs.store fs.r
      let store2 := if rw then (remountIdx dirs ds res.1 fs.w).1 else res.1
      ({ fs with store := store2 }, res.2)

/-- Loop of `mountSubset`: collect `src.mp[len(dirs)]` for every source whose
mount point strictly extends `dirs`, eliding duplicates through the `seen`
set (Go's `have` map), first occurrence kept. -/
def mountSubsetLoop (dirs : List String) : List Source → List String → List String
  | [], _ => []
  | src :: rest, seen =>
    if decide (dirs.length < src.mp.length) && dirs.isPrefixOf src.mp then
      match src.mp[dirs.length]? with
      | some mp =>
        if mp ∈ seen then mountSubsetLoop dirs rest seen
        else mp :: mountSubsetLoop dirs rest (mp :: seen)
      | none => mountSubsetLoop dirs rest seen
    else mountSubsetLoop dirs rest seen

/-- `mountSubset` from `axis2.go`: the distinct next-segment names of all
mount points strictly below `path` in the selected view (`nil`, i.e. `[]`,
for an invalid path). -/
def FileSystem.mountSubset (fs : FileSystem) (path : String) (r : Bool) : List String :=
  match validatePath path with
  | none => []
  | some dirs => mountSubsetLoop dirs (fs.view r) []

/-- `isMP` from `axis2.go`: `true` iff some mount point of the selected view
strictly extends the path (same matching rule as `mountSubset`, short-circuit
on the first hit). -/
def FileSystem.isMP (fs : FileSystem) (path : String) (r : Bool) : Bool :=
  match validatePath path with
  | none => false
  | some dirs =>
    (fs.view r).any
      (fun src => decide (dirs.length < src.mp.length) && dirs.isPrefixOf src.mp)

/-! ## Resolution engine -/

/-- The inner loop of `GetDSsAt`: starting from a source's item, walk the
remaining path segments.  At each step the current item must implement `Dir`
(else the binding is skipped), and `Child` is asked for the next segment with
a creation hint: `CreateFile` on the last segment when `create`, `CreateDir`
on earlier segments when `create`, else `CreateNone`.  A `nil` child skips the
binding. -/
def walk (create : Bool) : DS → List String → Option DS
  | ds, [] => some ds
  | ds, seg :: rest =>
    if ds.isDir then
      match ds.child seg
          (if create then (if rest = [] then CreateFile else CreateDir) else CreateNone) with
      | some d => walk create d rest
      | none => none
    else none

/-- The outer loop of `GetDSsAt`: a source contributes a candidate iff its
mount point is a prefix of the target segments and the walk over the remaining
segments succeeds. -/
def resolveAll (sources : List Source) (dirs : List String) (create : Bool) : List DS :=
  sources.filterMap (fun src =>
    if src.mp.isPrefixOf dirs then walk create src.ds (dirs.drop src.mp.length)
    else none)

/-- `GetDSsAt` from `axis2.go`: all data sources matching the path in the
selected view.  On an empty result: `ErrBadAction` when the path is a mount
point subset of the same view, else `ErrNotFound`. -/
def FileSystem.GetDSsAt (fs : FileSystem) (path : String) (create r : Bool) :
    List DS × Option AxisError :=
  match validatePath path with
  | none => ([], some ⟨path, .badPath⟩)
  | some dirs =>
    match resolveAll (fs.view r) dirs create with
    | [] =>
      if fs.isMP path r then ([], some ⟨path, .badAction⟩)
      else ([], some ⟨path, .notFound⟩)
    | dss => (dss, none)

/-- `GetDSAt` from `axis2.go`: the first data source matching the path.  The
Go code indexes `dss[0]` unconditionally after a `nil` error; the model's
`head?` is `some` exactly when that access is in bounds. -/
def FileSystem.GetDSAt (fs : FileSystem) (path : String) (create r : Bool) :
    Option DS × Option AxisError :=
  match fs.GetDSsAt path create r with
  | (_, some e) => (none, some e)
  | (dss, none) => (dss.head?, none)

/-! ## Namespace facade -/

/-- Loop of `Delete`: for each candidate parent, if it implements `Dir` and
`Child(last, 0)` is non-`nil`, return the wrapped result of `Delete(last)`;
if no candidate qualifies, `ErrNotFound` at the full caller path. -/
def deleteLoop (last path : String) : List DS → Option AxisError
  | [] => some ⟨path, .notFound⟩
  | ds :: rest =>
    if ds.isDir then
      match ds.child last 0 with
      | some _ => wrapError (ds.delRes last) path
      | none => deleteLoop last path rest
    else deleteLoop last path rest

/-- `Delete` from `axis2.go`: split the raw path at its last slash, resolve
the parent against the write view without creation (propagating its error
verbatim), then run `deleteLoop` over the candidates. -/
def FileSystem.Delete (fs : FileSystem) (path : String) : Option AxisError :=
  match fs.GetDSsAt (trimLastPath path).1 false false with
  | (_, some e) => some e
  | (dss, none) => deleteLoop (trimLastPath path).2 path dss

/-- Inner loop shared by `List`-style enumeration: append each name not yet in
the `seen` set (Go's `have` map) to the accumulator, marking it seen. -/
def addNames : List String → List String → List String → List String × List String
  | [], seen, acc => (seen, acc)
  | n :: rest, seen, acc =>
    if n ∈ seen then addNames rest seen acc
    else addNames rest (n :: seen) (acc ++ [n])

/-- Outer loop of `List`: each candidate implementing `Dir` contributes its
children, deduplicated across candidates through the shared `seen` set. -/
def listCollect : List DS → List String → List String → List String × List String
  | [], seen, acc => (seen, acc)
  | ds :: rest, seen, acc =>
    if ds.isDir then
      let st := addNames ds.children seen acc
      listCollect rest st.1 st.2
    else listCollect rest seen acc

/-- `List` from `axis2.go`: on resolution failure fall back to the mount
subset listing; otherwise collect the deduplicated children of all `Dir`
candidates and append the mount subset names (without further
deduplication against the children). -/
def FileSystem.List (fs : FileSystem) (path : String) : Names :=
  match fs.GetDSsAt path false true with
  | (_, some _) => fs.mountSubset path true
  | (dss, none) => (listCollect dss [] []).2 ++ fs.mountSubset path true

/-- Inner loop of `ListFiles` for one `Dir` candidate: each not-yet-seen child
name is marked seen and appended iff `Child(name, 0)` implements `File`. -/
def filesAdd (d : DS) : List String → List String → List String → List String × List String
  | [], seen, acc => (seen, acc)
  | n :: rest, seen, acc =>
    if n ∈ seen then filesAdd d rest seen acc
    else
      filesAdd d rest (n :: seen)
        (match d.child n 0 with
         | some c => if c.isFile then acc ++ [n] else acc
         | none => acc)

/-- Outer loop of `ListFiles`: a candidate that does not implement `Dir` makes
the whole function `return nil` (modelled as `none`), discarding every
contribution gathered so far. -/
def listFilesCollect : List DS → List String → List String → Option (List String × List String)
  | [], seen, acc => some (seen, acc)
  | ds :: rest, seen, acc =>
    if ds.isDir then
      let st := filesAdd ds ds.children seen acc
      listFilesCollect rest st.1 st.2
    else none

/-- `ListFiles` from `axis2.go`: `nil` on resolution failure or when any
candidate is not a `Dir`; otherwise the `File`-typed children of the
candidates, deduplicated first-occurrence-wins. -/
def FileSystem.ListFiles (fs : FileSystem) (path : String) : Names :=
  match fs.GetDSsAt path false true with
  | (_, some _) => []
  | (dss, none) =>
    match listFilesCollect dss [] [] with
    | some st => st.2
    | none => []

/-- `Read` from `axis2.go`: resolve a single item from the read view without
creation, require the `File` interface (`ErrBadAction` otherwise), then open
it for reading, wrapping any backend error with the caller's path.  The
`(none, none)` fallback corresponds to the unreachable out-of-bounds access
inside `GetDSAt` (see the safety claim). -/
def FileSystem.Read (fs : FileSystem) (path : String) : Option Reader × Option AxisError :=
  match fs.GetDSAt path false true with
  | (_, some e) => (none, some e)
  | (some ds, none) =>
    if ds.isFile then (ds.fread.1, wrapError ds.fread.2 path)
    else (none, some ⟨path, .badAction⟩)
  | (none, none) => (none, none)

/-- `ReadAll` from `axis2.go`: open for reading (propagating the error), then
transfer all bytes, wrapping any transfer error with the caller's path. -/
def FileSystem.ReadAll (fs : FileSystem) (path : String) :
    Option Bytes × Option AxisError :=
  match fs.Read path with
  | (_, some e) => (none, some e)
  | (some reader, none) => (some reader.content, wrapError reader.rerr path)
  | (none, none) => (none, none)

/-- `Write` from `axis2.go`: resolve a single item from the write view with
creation requested, require the `File` interface (`ErrBadAction` otherwise),
then open it for truncating writing, wrapping any backend error. -/
def FileSystem.Write (fs : FileSystem) (path : String) : Option Writer × Option AxisError :=
  match fs.GetDSAt path true false with
  | (_, some e) => (none, some e)
  | (some ds, none) =>
    if ds.isFile then (ds.fwrite.1, wrapError ds.fwrite.2 path)
    else (none, some ⟨path, .badAction⟩)
  | (none, none) => (none, none)

/-- `Append` from `axis2.go`: like `Write` but opening for appending. -/
def FileSystem.Append (fs : FileSystem) (path : String) : Option Writer × Option AxisError :=
  match fs.GetDSAt path true false with
  | (_, some e) => (none, some e)
  | (some ds, none) =>
    if ds.isFile then (ds.fappend.1, wrapError ds.fappend.2 path)
    else (none, some ⟨path, .badAction⟩)
  | (none, none) => (none, none)

/-- `WriteAll` from `axis2.go`: open for writing (propagating the error), then
write the whole content, wrapping any write error with the caller's path. -/
def FileSystem.WriteAll (fs : FileSystem) (path : String) (content : Bytes) :
    Option AxisError :=
  match fs.Write path with
  | (_, some e) => some e
  | (some w, none) => wrapError (w.werr content) path
  | (none, none) => none

/-! ## Reachable states -/

/-- The `FileSystem` states reachable from the zero value through the public
mount-table mutators. -/
inductive Reachable : FileSystem → Prop where
  | zero : Reachable zeroFS
  | mount (fs : FileSystem) (path : String) (ds : DS) (rw : Bool) :
      Reachable fs → Reachable (fs.Mount path ds rw).1
  | unmount (fs : FileSystem) (path : String) (r : Bool) :
      Reachable fs → Reachable (fs.Unmount path r).1
  | swap (fs : FileSystem) (path : String) (ds : DS) (rw : Bool) :
      Reachable fs → Reachable (fs.SwapMount path ds rw).1

/-! ## Concrete fixtures

Small concrete data sources and file systems used by the witnesses and
counterexamples below. -/

/-- A data source implementing only the `File` interface, with error-free
streams and empty content. -/
def fileDS : DS :=
  DS.mk false true (fun _ _ => none) (fun _ => none) []
    (some ⟨[], none⟩, none) (some ⟨fun _ => none⟩, none) (some ⟨fun _ => none⟩, none) 0

/-- A data source implementing only the `Dir` interface, with the given
child-lookup map (ignoring the creation hint) and child-name listing;
`Delete` always succeeds. -/
def dirDS (childMap : String → Option DS) (names : List String) : DS :=
  DS.mk true false (fun n _ => childMap n) (fun _ => none) names
    (none, none) (none, none) (none, none) (-1)

/-- A directory with a single `File` child `"b"`. -/
def dirA : DS := dirDS (fun n => if n = "b" then some fileDS else none) ["b"]

/-- A directory with a single `Dir` child `"a"` (which has a `File` child
`"b"`). -/
def rootAB : DS := dirDS (fun n => if n = "a" then some dirA else none) ["a"]

/-- `rootAB` mounted read/write at the root: the file `"a/b"` exists. -/
def fsAB : FileSystem := ⟨[⟨[], rootAB⟩], [0], [0]⟩

/-- A directory with a single `File` child `"x"`. -/
def rootX : DS := dirDS (fun n => if n = "x" then some fileDS else none) ["x"]

/-- `rootX` mounted read/write at the root, and `fileDS` also mounted at
`"x"`: the name `"x"` is both a child of a resolved `Dir` and a mount point
subset name of the root. -/
def fsOverlap : FileSystem := ⟨[⟨[], rootX⟩, ⟨["x"], fileDS⟩], [0, 1], [0, 1]⟩

/-- A directory with a single `File` child `"f"`. -/
def dirF : DS := dirDS (fun n => if n = "f" then some fileDS else none) ["f"]

/-- Two data sources multiplexed at `"p"`: first a `File`-only item, then a
`Dir` with a `File` child. -/
def fsMux : FileSystem := ⟨[⟨["p"], fileDS⟩, ⟨["p"], dirF⟩], [0, 1], [0, 1]⟩

/-- A single binding at `"a/b"`, making `"a"` a mount point subset with no
data source of its own. -/
def fsDeep : FileSystem := ⟨[⟨["a", "b"], fileDS⟩], [0], [0]⟩

/-! ## Helper lemmas -/

theorem isPrefixOf_self : ∀ (l : List String), l.isPrefixOf l = true
  | [] => rfl
  | a :: l => by simp [List.isPrefixOf, isPrefixOf_self l]

theorem getDSsAt_eq (fs : FileSystem) (path : String) (create r : Bool)
    (dirs : List String) (hv : validatePath path = some dirs) :
    fs.GetDSsAt path create r =
      match resolveAll (fs.view r) dirs create with
      | [] =>
        if fs.isMP path r then ([], some ⟨path, .badAction⟩)
        else ([], some ⟨path, .notFound⟩)
      | dss => (dss, none) := by
  unfold FileSystem.GetDSsAt
  rw [hv]

theorem isMP_eq (fs : FileSystem) (path : String) (r : Bool)
    (dirs : List String) (hv : validatePath path = some dirs) :
    fs.isMP path r =
      (fs.view r).any
        (fun src => decide (dirs.length < src.mp.length) && dirs.isPrefixOf src.mp) := by
  unfold FileSystem.isMP
  rw [hv]

theorem getDSsAt_snd_none_iff (fs : FileSystem) (path : String) (create r : Bool) :
    (fs.GetDSsAt path create r).2 = none ↔ (fs.GetDSsAt path create r).1 ≠ [] := by
  cases hv : validatePath path with
  | none => unfold FileSystem.GetDSsAt; rw [hv]; simp
  | some dirs =>
    rw [getDSsAt_eq fs path create r dirs hv]
    cases hres : resolveAll (fs.view r) dirs create with
    | nil => by_cases hmp : fs.isMP path r <;> simp [hmp]
    | cons d ds => simp

/-! ## Claim theorems -/

/-- Claim C10 (safety): for every path, creation flag and view selector,
`GetDSsAt` returns a `nil` error exactly when its candidate list is non-empty
(hence an error exactly when the list is empty), and consequently `GetDSAt`'s
access to the first element of that list is always in bounds. -/
theorem getDSsAt_ok_iff_nonempty (fs : FileSystem) (path : String) (create r : Bool) :
    ((fs.GetDSsAt path create r).2 = none ↔ (fs.GetDSsAt path create r).1 ≠ []) ∧
    ((fs.GetDSsAt path create r).2 = none → ((fs.GetDSAt path create r).1).isSome = true) := by
  refine ⟨getDSsAt_snd_none_iff fs path create r, fun h => ?_⟩
  have hne := (getDSsAt_snd_none_iff fs path create r).mp h
  unfold FileSystem.GetDSAt
  rcases hg : fs.GetDSsAt path create r with ⟨dss, err⟩
  rw [hg] at h hne
  simp only [Prod.snd] at h
  subst h
  cases dss with
  | nil => exact absurd rfl hne
  | cons d rest => simp

/-- Witness for the safety claim: on `fsAB` the path `"a"` resolves, and the
first-candidate access is in bounds. -/
theorem getDSsAt_ok_iff_nonempty_witness :
    ((fsAB.GetDSAt "a" false true).1).isSome = true :=
  (getDSsAt_ok_iff_nonempty fsAB "a" false true).2 (by decide)

/-- Claim C1 (post-loop policy of `GetDSsAt`): for every valid path and either
view, when no binding yields an item the error kind is `ErrBadAction` if the
path is a strict prefix of some mount point of the same view and `ErrNotFound`
otherwise; when at least one binding yields an item the candidates are
returned with a `nil` error.  `GetDSAt` propagates the same error. -/
theorem getDSsAt_postloop_policy (fs : FileSystem) (path : String) (create r : Bool)
    (dirs : List String) (hv : validatePath path = some dirs) :
    (resolveAll (fs.view r) dirs create = [] →
      fs.GetDSsAt path create r =
        ([], some ⟨path,
          if (fs.view r).any
              (fun src => decide (dirs.length < src.mp.length) && dirs.isPrefixOf src.mp)
          then .badAction else .notFound⟩)) ∧
    (resolveAll (fs.view r) dirs create ≠ [] →
      fs.GetDSsAt path create r = (resolveAll (fs.view r) dirs create, none)) ∧
    (fs.GetDSAt path create r).2 = (fs.GetDSsAt path create r).2 := by
  refine ⟨fun hres => ?_, fun hres => ?_, ?_⟩
  · rw [getDSsAt_eq fs path create r dirs hv, hres, ← isMP_eq fs path r dirs hv]
    by_cases hmp : fs.isMP path r <;> simp [hmp]
  · rw [getDSsAt_eq fs path create r dirs hv]
    cases hres2 : resolveAll (fs.view r) dirs create with
    | nil => exact absurd hres2 hres
    | cons d rest => rfl
  · unfold FileSystem.GetDSAt
    rcases hg : fs.GetDSsAt path create r with ⟨dss, err⟩
    cases err <;> simp

/-- Witness for the post-loop policy: on `fsDeep` (only binding at
`"a/b"`), the path `"a"` yields no item but is a strict mount point prefix,
so the error kind is `ErrBadAction`. -/
theorem getDSsAt_postloop_policy_witness :
    (fsDeep.GetDSsAt "a" false true).2 = some ⟨"a", ErrTyp.badAction⟩ := by
  have h :=
    (getDSsAt_postloop_policy fsDeep "a" false true ["a"] (by decide)).1 (by rfl)
  rw [h]
  decide

/-- Claim C4 (mount/resolve round trip): for every valid path and every item
implementing `File` or `Dir`, `Mount` succeeds and a subsequent resolution of
exactly that path (no creation, read view) returns, without error, a candidate
list containing the item. -/
theorem mount_then_resolve (fs : FileSystem) (path : String) (ds : DS) (rw : Bool)
    (dirs : List String) (hv : validatePath path = some dirs)
    (hcap : (ds.isFile || ds.isDir) = true) :
    (fs.Mount path ds rw).2 = none ∧
    (((fs.Mount path ds rw).1.GetDSsAt path false true).2 = none ∧
      ds ∈ ((fs.Mount path ds rw).1.GetDSsAt path false true).1) := by
  have hmount : fs.Mount path ds rw =
      (⟨fs.store ++ [⟨dirs, ds⟩], fs.r ++ [fs.store.length],
        if rw then fs.w ++ [fs.store.length] else fs.w⟩, none) := by
    unfold FileSystem.Mount
    rw [hv, hcap]
    simp
  have h1 : (fs.Mount path ds rw).1 =
      (⟨fs.store ++ [⟨dirs, ds⟩], fs.r ++ [fs.store.length],
        if rw then fs.w ++ [fs.store.length] else fs.w⟩ : FileSystem) := by
    rw [hmount]
  have hmem0 : (⟨dirs, ds⟩ : Source) ∈
      FileSystem.readSources ⟨fs.store ++ [⟨dirs, ds⟩], fs.r ++ [fs.store.length],
        if rw then fs.w ++ [fs.store.length] else fs.w⟩ := by
    unfold FileSystem.readSources
    refine List.mem_filterMap.mpr
      ⟨fs.store.length, List.mem_append_right _ (List.mem_singleton.mpr rfl), ?_⟩
    exact List.getElem?_concat_length fs.store ⟨dirs, ds⟩
  have hmem : ds ∈ resolveAll
      (FileSystem.view ⟨fs.store ++ [⟨dirs, ds⟩], fs.r ++ [fs.store.length],
        if rw then fs.w ++ [fs.store.length] else fs.w⟩ true) dirs false := by
    refine List.mem_filterMap.mpr ⟨⟨dirs, ds⟩, ?_, ?_⟩
    · exact hmem0
    · simp [isPrefixOf_self, List.drop_length, walk]
  obtain ⟨d, rest, hres⟩ := List.exists_cons_of_ne_nil (List.ne_nil_of_mem hmem)
  refine ⟨by rw [hmount], ?_, ?_⟩
  · rw [h1, getDSsAt_eq _ path false true dirs hv, hres]
  · rw [h1, getDSsAt_eq _ path false true dirs hv]
    rw [hres]
    have hmem2 : ds ∈ d :: rest := by rw [← hres]; exact hmem
    exact hmem2

/-- Witness for the mount/resolve round trip at a concrete path and item. -/
theorem mount_then_resolve_witness :
    (zeroFS.Mount "a" fileDS true).2 = none ∧
      fileDS ∈ (((zeroFS.Mount "a" fileDS true).1).GetDSsAt "a" false true).1 := by
  have h := mount_then_resolve zeroFS "a" fileDS true ["a"] (by decide) rfl
  exact ⟨h.1, h.2.2⟩

theorem deleteLoop_eq_find (last path : String) :
    ∀ dss : List DS, deleteLoop last path dss =
      match dss.find? (fun ds => ds.isDir && (ds.child last 0).isSome) with
      | some d => wrapError (d.delRes last) path
      | none => some ⟨path, .notFound⟩
  | [] => rfl
  | ds :: rest => by
    by_cases hd : ds.isDir
    · cases hc : ds.child last 0 with
      | some c => simp [deleteLoop, hd, hc, List.find?]
      | none => simp [deleteLoop, hd, hc, List.find?, deleteLoop_eq_find last path rest]
    · simp [deleteLoop, hd, List.find?, deleteLoop_eq_find last path rest]

/-- Claim C2 (delete policy): when the parent path (split off at the last
slash) resolves in the write view, `Delete` invokes the backend delete on the
first candidate, in binding insertion order, that implements `Dir` and already
has a child of the final segment's name, returning that delete's wrapped
outcome; when no candidate qualifies, it returns `ErrNotFound`. -/
theorem delete_first_container_with_child (fs : FileSystem) (path : String) (dss : List DS)
    (h : fs.GetDSsAt (trimLastPath path).1 false false = (dss, none)) :
    (∀ d, dss.find? (fun ds => ds.isDir && (ds.child (trimLastPath path).2 0).isSome)
        = some d →
      fs.Delete path = wrapError (d.delRes (trimLastPath path).2) path) ∧
    (dss.find? (fun ds => ds.isDir && (ds.child (trimLastPath path).2 0).isSome) = none →
      fs.Delete path = some ⟨path, .notFound⟩) := by
  have hd : fs.Delete path = deleteLoop (trimLastPath path).2 path dss := by
    unfold FileSystem.Delete
    rw [h]
  constructor
  · intro d hfind
    rw [hd, deleteLoop_eq_find, hfind]
  · intro hfind
    rw [hd, deleteLoop_eq_find, hfind]

/-- Witness for the delete policy: deleting `"a/b"` on `fsAB` succeeds through
the single parent candidate `dirA`, which has the child `"b"`. -/
theorem delete_first_container_with_child_witness : fsAB.Delete "a/b" = none := by
  have h := (delete_first_container_with_child fsAB "a/b" [dirA] (by rfl)).1 dirA (by rfl)
  exact h.trans rfl

theorem wrapError_path (err : Option BErr) (p : String) (e : AxisError)
    (h : wrapError err p = some e) : e.path = p := by
  cases err with
  | none => cases h
  | some b =>
    cases b with
    | axis a => simp [wrapError] at h; rw [← h]
    | osPath ne => cases ne <;> simp [wrapError] at h <;> rw [← h]
    | other => simp [wrapError] at h; rw [← h]

theorem getDSsAt_err_path (fs : FileSystem) (path : String) (create r : Bool)
    (e : AxisError) (h : (fs.GetDSsAt path create r).2 = some e) : e.path = path := by
  unfold FileSystem.GetDSsAt at h
  split at h
  · simp at h; rw [← h]
  · split at h
    · split at h
      · simp at h; rw [← h]
      · simp at h; rw [← h]
    · simp at h

theorem getDSAt_err_path (fs : FileSystem) (path : String) (create r : Bool)
    (e : AxisError) (h : (fs.GetDSAt path create r).2 = some e) : e.path = path := by
  unfold FileSystem.GetDSAt at h
  rcases hg : fs.GetDSsAt path create r with ⟨dss, err⟩
  rw [hg] at h
  cases err with
  | some e2 =>
    simp at h
    rw [← h]
    exact getDSsAt_err_path fs path create r e2 (by rw [hg])
  | none => simp at h

theorem deleteLoop_err_path (last p : String) :
    ∀ (dss : List DS) (e : AxisError), deleteLoop last p dss = some e → e.path = p := by
  intro dss
  induction dss with
  | nil => intro e h; simp [deleteLoop] at h; rw [← h]
  | cons ds rest ih =>
    intro e h
    by_cases hd : ds.isDir
    · cases hc : ds.child last 0 with
      | some c =>
        simp [deleteLoop, hd, hc] at h
        exact wrapError_path _ _ _ h
      | none =>
        simp [deleteLoop, hd, hc] at h
        exact ih e h
    · simp [deleteLoop, hd] at h
      exact ih e h

/-- Claim C5 (amended): `Read`, `ReadAll`, `Write`, `Append`, `WriteAll`,
`Mount` and `Unmount` return errors whose `Path` field is exactly the path the
caller supplied; `Delete` returns errors carrying either the supplied path or
— for failures of the parent resolution — the parent prefix obtained by
splitting the supplied path at its last slash. -/
theorem facade_errors_carry_path (fs : FileSystem) (path : String) (ds : DS) (rw : Bool)
    (content : Bytes) :
    (∀ e, (fs.Read path).2 = some e → e.path = path) ∧
    (∀ e, (fs.ReadAll path).2 = some e → e.path = path) ∧
    (∀ e, (fs.Write path).2 = some e → e.path = path) ∧
    (∀ e, (fs.Append path).2 = some e → e.path = path) ∧
    (∀ e, fs.WriteAll path content = some e → e.path = path) ∧
    (∀ e, (fs.Mount path ds rw).2 = some e → e.path = path) ∧
    (∀ e, (fs.Unmount path rw).2 = some e → e.path = path) ∧
    (∀ e, fs.Delete path = some e → e.path = path ∨ e.path = (trimLastPath path).1) := by
  have hread : ∀ e, (fs.Read path).2 = some e → e.path = path := by
    intro e h
    unfold FileSystem.Read at h
    rcases hg : fs.GetDSAt path false true with ⟨ods, err⟩
    rw [hg] at h
    cases err with
    | some e2 =>
      simp at h
      rw [← h]
      exact getDSAt_err_path fs path false true e2 (by rw [hg])
    | none =>
      cases ods with
      | some d =>
        by_cases hf : d.isFile
        · simp [hf] at h
          exact wrapError_path _ _ _ h
        · simp [hf] at h; rw [← h]
      | none => simp at h
  have hwrite : ∀ e, (fs.Write path).2 = some e → e.path = path := by
    intro e h
    unfold FileSystem.Write at h
    rcases hg : fs.GetDSAt path true false with ⟨ods, err⟩
    rw [hg] at h
    cases err with
    | some e2 =>
      simp at h
      rw [← h]
      exact getDSAt_err_path fs path true false e2 (by rw [hg])
    | none =>
      cases ods with
      | some d =>
        by_cases hf : d.isFile
        · simp [hf] at h
          exact wrapError_path _ _ _ h
        · simp [hf] at h; rw [← h]
      | none => simp at h
  have happend : ∀ e, (fs.Append path).2 = some e → e.path = path := by
    intro e h
    unfold FileSystem.Append at h
    rcases hg : fs.GetDSAt path true false with ⟨ods, err⟩
    rw [hg] at h
    cases err with
    | some e2 =>
      simp at h
      rw [← h]
      exact getDSAt_err_path fs path true false e2 (by rw [hg])
    | none =>
      cases ods with
      | some d =>
        by_cases hf : d.isFile
        · simp [hf] at h
          exact wrapError_path _ _ _ h
        · simp [hf] at h; rw [← h]
      | none => simp at h
  have hreadAll : ∀ e, (fs.ReadAll path).2 = some e → e.path = path := by
    intro e h
    unfold FileSystem.ReadAll at h
    rcases hr : fs.Read path with ⟨ord, err⟩
    rw [hr] at h
    cases err with
    | some e2 =>
      simp at h
      rw [← h]
      exact hread e2 (by rw [hr])
    | none =>
      cases ord with
      | some reader =>
        simp at h
        exact wrapError_path _ _ _ h
      | none => simp at h
  have hwriteAll : ∀ e, fs.WriteAll path content = some e → e.path = path := by
    intro e h
    unfold FileSystem.WriteAll at h
    rcases hw : fs.Write path with ⟨owr, err⟩
    rw [hw] at h
    cases err with
    | some e2 =>
      simp at h
      rw [← h]
      exact hwrite e2 (by rw [hw])
    | none =>
      cases owr with
      | some w =>
        simp at h
        exact wrapError_path _ _ _ h
      | none => cases h
  have hmount : ∀ e, (fs.Mount path ds rw).2 = some e → e.path = path := by
    intro e h
    unfold FileSystem.Mount at h
    split at h
    · simp at h; rw [← h]
    · split at h
      · simp at h; rw [← h]
      · simp at h
  have hunmount : ∀ e, (fs.Unmount path rw).2 = some e → e.path = path := by
    intro e h
    unfold FileSystem.Unmount at h
    split at h
    · simp at h; rw [← h]
    · simp at h
  have hdelete : ∀ e, fs.Delete path = some e →
      e.path = path ∨ e.path = (trimLastPath path).1 := by
    intro e h
    unfold FileSystem.Delete at h
    rcases hg : fs.GetDSsAt (trimLastPath path).1 false false with ⟨dss, err⟩
    rw [hg] at h
    cases err with
    | some e2 =>
      simp at h
      right
      rw [← h]
      exact getDSsAt_err_path fs (trimLastPath path).1 false false e2 (by rw [hg])
    | none =>
      left
      exact deleteLoop_err_path (trimLastPath path).2 path dss e h
  exact ⟨hread, hreadAll, hwrite, happend, hwriteAll, hmount, hunmount, hdelete⟩

/-- Witness for the amended error-path claim: `Mount` on an invalid path
reports `ErrBadPath` carrying exactly the supplied path. -/
theorem facade_errors_carry_path_witness : (⟨"<", ErrTyp.badPath⟩ : AxisError).path = "<" :=
  (facade_errors_carry_path zeroFS "<" fileDS true []).2.2.2.2.2.1
    ⟨"<", ErrTyp.badPath⟩ (by decide)

/-- Counterexample to claim C5 as stated: `Delete` of `"a/b"` on the empty
file system surfaces the parent-resolution failure, whose `Path` field is the
parent prefix `"a"`, not the supplied path `"a/b"`. -/
theorem delete_error_path_cex :
    zeroFS.Delete "a/b" = some ⟨"a", ErrTyp.notFound⟩ ∧ ("a" : String) ≠ "a/b" := by
  constructor
  · decide
  · decide

theorem unmountIdx_filterMap (store : List Source) (dirs : List String) :
    ∀ l : List Nat,
      (unmountIdx store dirs l).filterMap (fun i => store[i]?) =
        (l.filterMap (fun i => store[i]?)).filter (fun s => !decide (s.mp = dirs)) := by
  intro l
  induction l with
  | nil => rfl
  | cons i rest ih =>
    cases hs : store[i]? with
    | none => simp [unmountIdx, hs, List.filterMap_cons, ih]
    | some s =>
      by_cases hm : s.mp = dirs
      · simp [unmountIdx, hs, hm, List.filterMap_cons, List.filter_cons, ih]
      · simp [unmountIdx, hs, hm, List.filterMap_cons, List.filter_cons, ih]

/-- Claim C8 (unmount semantics): for every valid path, `Unmount` returns no
error, removes from the write view exactly the bindings whose segment sequence
equals the path's normal form (preserving the relative order of the others,
being a `filter`), and does the same to the read view iff the read flag is
set. -/
theorem unmount_removes_exact_matches (fs : FileSystem) (path : String) (flag : Bool)
    (dirs : List String) (hv : validatePath path = some dirs) :
    (fs.Unmount path flag).2 = none ∧
    (fs.Unmount path flag).1.writeSources =
      fs.writeSources.filter (fun s => !decide (s.mp = dirs)) ∧
    (fs.Unmount path flag).1.readSources =
      (if flag then fs.readSources.filter (fun s => !decide (s.mp = dirs))
       else fs.readSources) := by
  have hu1 : (fs.Unmount path flag).1 =
      { fs with
          w := unmountIdx fs.store dirs fs.w
          r := if flag then unmountIdx fs.store dirs fs.r else fs.r } := by
    unfold FileSystem.Unmount
    rw [hv]
  have hu2 : (fs.Unmount path flag).2 = none := by
    unfold FileSystem.Unmount
    rw [hv]
  refine ⟨hu2, ?_, ?_⟩
  · rw [hu1]
    unfold FileSystem.writeSources
    exact unmountIdx_filterMap fs.store dirs fs.w
  · rw [hu1]
    unfold FileSystem.readSources
    cases flag with
    | true => simpa using unmountIdx_filterMap fs.store dirs fs.r
    | false => simp

/-- Witness for the unmount semantics: unmounting `"p"` (also from the read
view) on `fsMux` removes both bindings and reports no error. -/
theorem unmount_removes_exact_matches_witness :
    (fsMux.Unmount "p" true).2 = none ∧ (fsMux.Unmount "p" true).1.readSources = [] := by
  have h := unmount_removes_exact_matches fsMux "p" true ["p"] (by decide)
  refine ⟨h.1, ?_⟩
  rw [h.2.2]
  rfl

theorem unmountIdx_eq_filter (store : List Source) (dirs : List String) :
    ∀ l : List Nat, unmountIdx store dirs l =
      l.filter (fun i =>
        match store[i]? with
        | some s => !decide (s.mp = dirs)
        | none => true) := by
  intro l
  induction l with
  | nil => rfl
  | cons j rest ih =>
    cases hs : store[j]? with
    | none => simp [unmountIdx, hs, List.filter_cons, ih]
    | some s =>
      by_cases hm : s.mp = dirs
      · simp [unmountIdx, hs, hm, List.filter_cons, ih]
      · simp [unmountIdx, hs, hm, List.filter_cons, ih]

theorem mem_unmountIdx (store : List Source) (dirs : List String) (l : List Nat) (i : Nat) :
    i ∈ unmountIdx store dirs l ↔
      (i ∈ l ∧ ∀ s, store[i]? = some s → s.mp ≠ dirs) := by
  rw [unmountIdx_eq_filter, List.mem_filter]
  constructor
  · rintro ⟨hmem, hp⟩
    refine ⟨hmem, fun s hss hmp => ?_⟩
    rw [hss] at hp
    simp [hmp] at hp
  · rintro ⟨hmem, hp⟩
    refine ⟨hmem, ?_⟩
    cases hss : store[i]? with
    | none => rfl
    | some s => simp [hp s hss]

theorem reachable_w_sub_r {fs : FileSystem} (h : Reachable fs) :
    ∀ i ∈ fs.w, i ∈ fs.r := by
  induction h with
  | zero => intro i hi; cases hi
  | mount fs path ds rw hr ih =>
    cases hv : validatePath path with
    | none =>
      have hm : fs.Mount path ds rw = (fs, some ⟨path, .badPath⟩) := by
        unfold FileSystem.Mount; rw [hv]
      rw [hm]
      exact ih
    | some dirs =>
      by_cases hcap : (ds.isFile || ds.isDir) = true
      · cases rw with
        | true =>
          have hm : (fs.Mount path ds true).1 =
              (⟨fs.store ++ [⟨dirs, ds⟩], fs.r ++ [fs.store.length],
                fs.w ++ [fs.store.length]⟩ : FileSystem) := by
            unfold FileSystem.Mount; rw [hv, hcap]; simp
          rw [hm]
          intro i hi
          rcases List.mem_append.mp hi with hiw | hione
          · exact List.mem_append_left _ (ih i hiw)
          · exact List.mem_append_right _ hione
        | false =>
          have hm : (fs.Mount path ds false).1 =
              (⟨fs.store ++ [⟨dirs, ds⟩], fs.r ++ [fs.store.length], fs.w⟩ : FileSystem) := by
            unfold FileSystem.Mount; rw [hv, hcap]; simp
          rw [hm]
          intro i hi
          exact List.mem_append_left _ (ih i hi)
      · have hcap' : (ds.isFile || ds.isDir) = false := by
          revert hcap; cases ds.isFile || ds.isDir <;> simp
        have hm : fs.Mount path ds rw = (fs, some ⟨path, .badAction⟩) := by
          unfold FileSystem.Mount; rw [hv, hcap']; simp
        rw [hm]
        exact ih
  | unmount fs path flag hr ih =>
    cases hv : validatePath path with
    | none =>
      have hm : fs.Unmount path flag = (fs, some ⟨path, .badPath⟩) := by
        unfold FileSystem.Unmount; rw [hv]
      rw [hm]
      exact ih
    | some dirs =>
      cases flag with
      | true =>
        have hm : (fs.Unmount path true).1 =
            { fs with
                w := unmountIdx fs.store dirs fs.w
                r := unmountIdx fs.store dirs fs.r } := by
          unfold FileSystem.Unmount; rw [hv]; simp
        rw [hm]
        intro i hi
        have hi' := (mem_unmountIdx fs.store dirs fs.w i).mp hi
        exact (mem_unmountIdx fs.store dirs fs.r i).mpr ⟨ih i hi'.1, hi'.2⟩
      | false =>
        have hm : (fs.Unmount path false).1 =
            { fs with w := unmountIdx fs.store dirs fs.w } := by
          unfold FileSystem.Unmount; rw [hv]; simp
        rw [hm]
        intro i hi
        have hi' := (mem_unmountIdx fs.store dirs fs.w i).mp hi
        exact ih i hi'.1
  | swap fs path ds rw hr ih =>
    cases hv : validatePath path with
    | none =>
      have hm : fs.SwapMount path ds rw = (fs, none) := by
        unfold FileSystem.SwapMount; rw [hv]
      rw [hm]
      exact ih
    | some dirs =>
      by_cases hcap : (ds.isFile || ds.isDir) = true
      · have hw : (fs.SwapMount path ds rw).1.w = fs.w := by
          unfold FileSystem.SwapMount; rw [hv, hcap]; simp
        have hrr : (fs.SwapMount path ds rw).1.r = fs.r := by
          unfold FileSystem.SwapMount; rw [hv, hcap]; simp
        rw [hw, hrr]
        exact ih
      · have hcap' : (ds.isFile || ds.isDir) = false := by
          revert hcap; cases ds.isFile || ds.isDir <;> simp
        have hm : fs.SwapMount path ds rw = (fs, none) := by
          unfold FileSystem.SwapMount; rw [hv, hcap']; simp
        rw [hm]
        exact ih

/-- Claim C9 (write view ⊆ read view): in every state reachable from the zero
value through `Mount`, `Unmount` and `SwapMount`, every binding present in
the write view is also present in the read view. -/
theorem write_view_subset_read_view {fs : FileSystem} (h : Reachable fs) :
    ∀ s ∈ fs.writeSources, s ∈ fs.readSources := by
  intro s hs
  rcases List.mem_filterMap.mp hs with ⟨i, hiw, hst⟩
  exact List.mem_filterMap.mpr ⟨i, reachable_w_sub_r h i hiw, hst⟩

/-- Witness for the write-view-subset claim after one concrete `Mount`. -/
theorem write_view_subset_read_view_witness :
    (⟨["a"], fileDS⟩ : Source) ∈ ((zeroFS.Mount "a" fileDS true).1).readSources := by
  refine write_view_subset_read_view
    (Reachable.mount zeroFS "a" fileDS true Reachable.zero) ⟨["a"], fileDS⟩ ?_
  have h : ((zeroFS.Mount "a" fileDS true).1).writeSources = [⟨["a"], fileDS⟩] := rfl
  rw [h]
  exact List.mem_singleton.mpr rfl

theorem addNames_inv : ∀ (ns seen acc : List String),
    (∀ x, x ∈ seen ↔ x ∈ acc) → acc.Nodup →
    ((∀ x, x ∈ (addNames ns seen acc).1 ↔ x ∈ (addNames ns seen acc).2) ∧
     (addNames ns seen acc).2.Nodup ∧
     (∀ x, x ∈ (addNames ns seen acc).2 ↔ (x ∈ acc ∨ x ∈ ns))) := by
  intro ns
  induction ns with
  | nil =>
    intro seen acc hinv hnd
    exact ⟨hinv, hnd, by simp [addNames]⟩
  | cons n rest ih =>
    intro seen acc hinv hnd
    by_cases hn : n ∈ seen
    · have heq : addNames (n :: rest) seen acc = addNames rest seen acc := by
        simp [addNames, hn]
      rw [heq]
      have h := ih seen acc hinv hnd
      refine ⟨h.1, h.2.1, fun x => ?_⟩
      rw [h.2.2 x]
      constructor
      · rintro (hx | hx)
        · exact Or.inl hx
        · exact Or.inr (List.mem_cons_of_mem _ hx)
      · rintro (hx | hx)
        · exact Or.inl hx
        · rcases List.mem_cons.mp hx with rfl | hx
          · exact Or.inl ((hinv x).mp hn)
          · exact Or.inr hx
    · have heq : addNames (n :: rest) seen acc = addNames rest (n :: seen) (acc ++ [n]) := by
        simp [addNames, hn]
      rw [heq]
      have hnacc : n ∉ acc := fun hx => hn ((hinv n).mpr hx)
      have hinv' : ∀ x, x ∈ n :: seen ↔ x ∈ acc ++ [n] := by
        intro x
        simp only [List.mem_cons, List.mem_append, List.mem_singleton, hinv x]
        tauto
      have hnd' : (acc ++ [n]).Nodup := by
        rw [List.nodup_append]
        exact ⟨hnd, List.nodup_singleton n, by simpa using hnacc⟩
      have h := ih (n :: seen) (acc ++ [n]) hinv' hnd'
      refine ⟨h.1, h.2.1, fun x => ?_⟩
      rw [h.2.2 x]
      simp only [List.mem_append, List.mem_singleton, List.mem_cons]
      tauto

theorem listCollect_inv : ∀ (dss : List DS) (seen acc : List String),
    (∀ x, x ∈ seen ↔ x ∈ acc) → acc.Nodup →
    ((∀ x, x ∈ (listCollect dss seen acc).1 ↔ x ∈ (listCollect dss seen acc).2) ∧
     (listCollect dss seen acc).2.Nodup ∧
     (∀ x, x ∈ (listCollect dss seen acc).2 ↔
        (x ∈ acc ∨ ∃ ds ∈ dss, ds.isDir = true ∧ x ∈ ds.children))) := by
  intro dss
  induction dss with
  | nil =>
    intro seen acc hinv hnd
    exact ⟨hinv, hnd, by simp [listCollect]⟩
  | cons dsx rest ih =>
    intro seen acc hinv hnd
    by_cases hd : dsx.isDir = true
    · have heq : listCollect (dsx :: rest) seen acc =
          listCollect rest (addNames dsx.children seen acc).1
            (addNames dsx.children seen acc).2 := by
        simp [listCollect, hd]
      rw [heq]
      have ha := addNames_inv dsx.children seen acc hinv hnd
      have h := ih (addNames dsx.children seen acc).1 (addNames dsx.children seen acc).2
        ha.1 ha.2.1
      refine ⟨h.1, h.2.1, fun x => ?_⟩
      rw [h.2.2 x]
      constructor
      · rintro (hx | ⟨ds, hmem, hdir, hx⟩)
        · rcases (ha.2.2 x).mp hx with hx | hx
          · exact Or.inl hx
          · exact Or.inr ⟨dsx, List.mem_cons_self dsx rest, hd, hx⟩
        · exact Or.inr ⟨ds, List.mem_cons_of_mem _ hmem, hdir, hx⟩
      · rintro (hx | ⟨ds, hmem, hdir, hx⟩)
        · exact Or.inl ((ha.2.2 x).mpr (Or.inl hx))
        · rcases List.mem_cons.mp hmem with rfl | hmem
          · exact Or.inl ((ha.2.2 x).mpr (Or.inr hx))
          · exact Or.inr ⟨ds, hmem, hdir, hx⟩
    · have heq : listCollect (dsx :: rest) seen acc = listCollect rest seen acc := by
        simp [listCollect, hd]
      rw [heq]
      have h := ih seen acc hinv hnd
      refine ⟨h.1, h.2.1, fun x => ?_⟩
      rw [h.2.2 x]
      constructor
      · rintro (hx | ⟨ds, hmem, hdir, hx⟩)
        · exact Or.inl hx
        · exact Or.inr ⟨ds, List.mem_cons_of_mem _ hmem, hdir, hx⟩
      · rintro (hx | ⟨ds, hmem, hdir, hx⟩)
        · exact Or.inl hx
        · rcases List.mem_cons.mp hmem with rfl | hmem
          · exact absurd hdir hd
          · exact Or.inr ⟨ds, hmem, hdir, hx⟩

theorem mountSubsetLoop_nodup (dirs : List String) :
    ∀ (sources : List Source) (seen : List String),
      (mountSubsetLoop dirs sources seen).Nodup ∧
      ∀ x ∈ mountSubsetLoop dirs sources seen, x ∉ seen := by
  intro sources
  induction sources with
  | nil => intro seen; exact ⟨List.nodup_nil, by simp [mountSubsetLoop]⟩
  | cons src rest ih =>
    intro seen
    by_cases hc : (decide (dirs.length < src.mp.length) && dirs.isPrefixOf src.mp) = true
    · cases hm : src.mp[dirs.length]? with
      | some mp =>
        by_cases hs : mp ∈ seen
        · have heq : mountSubsetLoop dirs (src :: rest) seen =
              mountSubsetLoop dirs rest seen := by
            simp [mountSubsetLoop, hc, hm, hs]
          rw [heq]
          exact ih seen
        · have heq : mountSubsetLoop dirs (src :: rest) seen =
              mp :: mountSubsetLoop dirs rest (mp :: seen) := by
            simp [mountSubsetLoop, hc, hm, hs]
          rw [heq]
          have h := ih (mp :: seen)
          constructor
          · rw [List.nodup_cons]
            refine ⟨fun hx => ?_, h.1⟩
            exact (h.2 mp hx) (List.mem_cons_self mp seen)
          · intro x hx
            rcases List.mem_cons.mp hx with rfl | hx
            · exact hs
            · exact fun hxs => (h.2 x hx) (List.mem_cons_of_mem _ hxs)
      | none =>
        have heq : mountSubsetLoop dirs (src :: rest) seen =
            mountSubsetLoop dirs rest seen := by
          simp [mountSubsetLoop, hc, hm]
        rw [heq]
        exact ih seen
    · have heq : mountSubsetLoop dirs (src :: rest) seen =
          mountSubsetLoop dirs rest seen := by
        simp only [mountSubsetLoop]
        rw [if_neg (by simpa using hc)]
      rw [heq]
      exact ih seen

/-- Claim C3 (amended): when resolution succeeds, `List` returns the children
of all `Dir` candidates deduplicated by name, first occurrence winning across
candidates in binding insertion order, followed by the distinct next-segment
mount point names at the path; the two parts are internally duplicate-free,
but a name occurring in both parts appears twice, because the mount subset
names are appended without deduplication against the children. -/
theorem list_dedup_children_append_subsets (fs : FileSystem) (path : String) (dss : List DS)
    (h : fs.GetDSsAt path false true = (dss, none)) :
    fs.List path = (listCollect dss [] []).2 ++ fs.mountSubset path true ∧
    (listCollect dss [] []).2.Nodup ∧
    (∀ n, n ∈ (listCollect dss [] []).2 ↔
      ∃ ds ∈ dss, ds.isDir = true ∧ n ∈ ds.children) ∧
    (fs.mountSubset path true).Nodup := by
  have hl : fs.List path = (listCollect dss [] []).2 ++ fs.mountSubset path true := by
    unfold FileSystem.List
    rw [h]
  have hc := listCollect_inv dss [] [] (by simp) List.nodup_nil
  refine ⟨hl, hc.2.1, fun n => ?_, ?_⟩
  · rw [hc.2.2 n]
    simp
  · unfold FileSystem.mountSubset
    cases hv : validatePath path with
    | none => exact List.nodup_nil
    | some dirs => exact (mountSubsetLoop_nodup dirs (fs.view true) []).1

/-- Witness for the amended enumeration claim on `fsOverlap`: the children
part and the mount subset part are each `["x"]`. -/
theorem list_dedup_children_append_subsets_witness :
    fsOverlap.List "" = ["x"] ++ ["x"] := by
  have h := (list_dedup_children_append_subsets fsOverlap "" [rootX] rfl).1
  exact h.trans rfl

/-- Counterexample to claim C3 as stated: on `fsOverlap` the name `"x"` is
both a child of the resolved root `Dir` and a mount point subset name, and
`List` returns it twice. -/
theorem list_duplicate_name_cex :
    fsOverlap.List "" = ["x", "x"] ∧ ¬ (fsOverlap.List "").Nodup := by
  constructor <;> decide

theorem listFilesCollect_abort : ∀ (dss : List DS) (seen acc : List String),
    (∃ ds ∈ dss, ds.isDir = false) → listFilesCollect dss seen acc = none := by
  intro dss
  induction dss with
  | nil =>
    rintro seen acc ⟨ds, hmem, _⟩
    cases hmem
  | cons d rest ih =>
    rintro seen acc ⟨ds, hmem, hdir⟩
    by_cases hd : d.isDir = true
    · have heq : listFilesCollect (d :: rest) seen acc =
          listFilesCollect rest (filesAdd d d.children seen acc).1
            (filesAdd d d.children seen acc).2 := by
        simp [listFilesCollect, hd]
      rw [heq]
      rcases List.mem_cons.mp hmem with rfl | hmem
      · rw [hd] at hdir; cases hdir
      · exact ih _ _ ⟨ds, hmem, hdir⟩
    · simp [listFilesCollect, hd]

theorem filesAdd_inv (d : DS) : ∀ (ns seen acc : List String),
    (∀ x, x ∈ acc → x ∈ seen) → acc.Nodup →
    ((∀ x, x ∈ (filesAdd d ns seen acc).2 → x ∈ (filesAdd d ns seen acc).1) ∧
     (filesAdd d ns seen acc).2.Nodup ∧
     (∀ x, x ∈ (filesAdd d ns seen acc).2 →
        x ∈ acc ∨ (x ∈ ns ∧ ∃ c, d.child x 0 = some c ∧ c.isFile = true))) := by
  intro ns
  induction ns with
  | nil =>
    intro seen acc hsub hnd
    exact ⟨hsub, hnd, fun x hx => Or.inl hx⟩
  | cons n rest ih =>
    intro seen acc hsub hnd
    by_cases hn : n ∈ seen
    · have heq : filesAdd d (n :: rest) seen acc = filesAdd d rest seen acc := by
        simp [filesAdd, hn]
      rw [heq]
      have h := ih seen acc hsub hnd
      refine ⟨h.1, h.2.1, fun x hx => ?_⟩
      rcases h.2.2 x hx with hx' | ⟨hxr, hc⟩
      · exact Or.inl hx'
      · exact Or.inr ⟨List.mem_cons_of_mem _ hxr, hc⟩
    · have hnacc : n ∉ acc := fun hx => hn (hsub n hx)
      have hsub' : ∀ x, x ∈ acc → x ∈ n :: seen :=
        fun x hx => List.mem_cons_of_mem _ (hsub x hx)
      have hsubapp : ∀ x, x ∈ acc ++ [n] → x ∈ n :: seen := by
        intro x hx
        rcases List.mem_append.mp hx with hx | hx
        · exact List.mem_cons_of_mem _ (hsub x hx)
        · rcases List.mem_singleton.mp hx with rfl
          exact List.mem_cons_self x seen
      have hndapp : (acc ++ [n]).Nodup := by
        rw [List.nodup_append]
        exact ⟨hnd, List.nodup_singleton n, by simpa using hnacc⟩
      cases hcz : d.child n 0 with
      | none =>
        have heq : filesAdd d (n :: rest) seen acc = filesAdd d rest (n :: seen) acc := by
          simp [filesAdd, hn, hcz]
        rw [heq]
        have h := ih (n :: seen) acc hsub' hnd
        refine ⟨h.1, h.2.1, fun x hx => ?_⟩
        rcases h.2.2 x hx with hx' | ⟨hxr, hc⟩
        · exact Or.inl hx'
        · exact Or.inr ⟨List.mem_cons_of_mem _ hxr, hc⟩
      | some c =>
        by_cases hcf : c.isFile = true
        · have heq : filesAdd d (n :: rest) seen acc =
              filesAdd d rest (n :: seen) (acc ++ [n]) := by
            simp [filesAdd, hn, hcz, hcf]
          rw [heq]
          have h := ih (n :: seen) (acc ++ [n]) hsubapp hndapp
          refine ⟨h.1, h.2.1, fun x hx => ?_⟩
          rcases h.2.2 x hx with hx' | ⟨hxr, hc⟩
          · rcases List.mem_append.mp hx' with hx'' | hx''
            · exact Or.inl hx''
            · rcases List.mem_singleton.mp hx'' with rfl
              exact Or.inr ⟨List.mem_cons_self x rest, c, hcz, hcf⟩
          · exact Or.inr ⟨List.mem_cons_of_mem _ hxr, hc⟩
        · have heq : filesAdd d (n :: rest) seen acc = filesAdd d rest (n :: seen) acc := by
            simp [filesAdd, hn, hcz, hcf]
          rw [heq]
          have h := ih (n :: seen) acc hsub' hnd
          refine ⟨h.1, h.2.1, fun x hx => ?_⟩
          rcases h.2.2 x hx with hx' | ⟨hxr, hc⟩
          · exact Or.inl hx'
          · exact Or.inr ⟨List.mem_cons_of_mem _ hxr, hc⟩

theorem listFilesCollect_inv : ∀ (dss : List DS) (seen acc : List String),
    (∀ ds ∈ dss, ds.isDir = true) →
    (∀ x, x ∈ acc → x ∈ seen) → acc.Nodup →
    ∃ st, listFilesCollect dss seen acc = some st ∧
      (∀ x, x ∈ st.2 → x ∈ st.1) ∧ st.2.Nodup ∧
      (∀ x, x ∈ st.2 → x ∈ acc ∨ ∃ ds ∈ dss, ds.isDir = true ∧ x ∈ ds.children ∧
        ∃ c, ds.child x 0 = some c ∧ c.isFile = true) := by
  intro dss
  induction dss with
  | nil =>
    intro seen acc hall hsub hnd
    exact ⟨(seen, acc), rfl, hsub, hnd, fun x hx => Or.inl hx⟩
  | cons d rest ih =>
    intro seen acc hall hsub hnd
    have hd : d.isDir = true := hall d (List.mem_cons_self d rest)
    have heq : listFilesCollect (d :: rest) seen acc =
        listFilesCollect rest (filesAdd d d.children seen acc).1
          (filesAdd d d.children seen acc).2 := by
      simp [listFilesCollect, hd]
    have ha := filesAdd_inv d d.children seen acc hsub hnd
    obtain ⟨st, hst, hstsub, hstnd, hstmem⟩ :=
      ih (filesAdd d d.children seen acc).1 (filesAdd d d.children seen acc).2
        (fun ds hds => hall ds (List.mem_cons_of_mem _ hds)) ha.1 ha.2.1
    refine ⟨st, heq.trans hst, hstsub, hstnd, fun x hx => ?_⟩
    rcases hstmem x hx with hx' | ⟨ds, hmem, hdir, hxc, hc⟩
    · rcases ha.2.2 x hx' with hx'' | ⟨hxc, hc⟩
      · exact Or.inl hx''
      · exact Or.inr ⟨d, List.mem_cons_self d rest, hd, hxc, hc⟩
    · exact Or.inr ⟨ds, List.mem_cons_of_mem _ hmem, hdir, hxc, hc⟩

/-- Claim C6 (amended): when resolution succeeds, `ListFiles` returns the
`File`-typed children of the candidates deduplicated first-occurrence-wins
only when every candidate implements `Dir`; a candidate that does not
implement `Dir` makes `ListFiles` return `nil`, discarding the contributions
of all other candidates rather than being skipped. -/
theorem listFiles_abort_or_dedup (fs : FileSystem) (path : String) (dss : List DS)
    (h : fs.GetDSsAt path false true = (dss, none)) :
    ((∃ ds ∈ dss, ds.isDir = false) → fs.ListFiles path = []) ∧
    ((∀ ds ∈ dss, ds.isDir = true) →
      (fs.ListFiles path).Nodup ∧
      ∀ n ∈ fs.ListFiles path, ∃ ds ∈ dss, ds.isDir = true ∧ n ∈ ds.children ∧
        ∃ c, ds.child n 0 = some c ∧ c.isFile = true) := by
  have hlf : fs.ListFiles path =
      (match listFilesCollect dss [] [] with
       | some st => st.2
       | none => []) := by
    unfold FileSystem.ListFiles
    rw [h]
  constructor
  · intro hex
    rw [hlf, listFilesCollect_abort dss [] [] hex]
  · intro hall
    obtain ⟨st, hst, _, hnd, hmem⟩ :=
      listFilesCollect_inv dss [] [] hall (by simp) List.nodup_nil
    rw [hlf, hst]
    exact ⟨hnd, fun n hn => (hmem n hn).resolve_left (by simp)⟩

/-- Witness for the amended `ListFiles` claim: on `fsMux` the first candidate
at `"p"` is not a `Dir`, so the whole enumeration is `nil`. -/
theorem listFiles_abort_or_dedup_witness : fsMux.ListFiles "p" = [] :=
  (listFiles_abort_or_dedup fsMux "p" [fileDS, dirF] rfl).1
    ⟨fileDS, List.mem_cons_self fileDS [dirF], rfl⟩

/-- Counterexample to claim C6 as stated: at `"p"` on `fsMux` the second
candidate `dirF` is a `Dir` with the `File`-typed child `"f"`, yet
`ListFiles` returns the empty (nil) result because the first candidate is not
a `Dir` — the non-`Dir` candidate suppresses the other's contribution. -/
theorem listFiles_abort_cex :
    fsMux.ListFiles "p" = [] ∧
    (fsMux.GetDSsAt "p" false true).1 = [fileDS, dirF] ∧
    dirF.isDir = true ∧ "f" ∈ dirF.children ∧
    dirF.child "f" 0 = some fileDS ∧ fileDS.isFile = true := by
  refine ⟨by decide, rfl, rfl, by decide, rfl, rfl⟩

/-- Claim C7 evaluation at the failing input: `"a/b"` and `"a/b/"` normalize
to the same segment sequence, yet on `fsAB` (which contains the file `"a/b"`)
`Delete` succeeds for the first and reports `ErrNotFound` for the second,
because `Delete` splits the raw string at its last slash before any
normalization, taking `""` as the final segment. -/
theorem delete_trailing_slash_divergence :
    validatePath "a/b" = validatePath "a/b/" ∧
    fsAB.Delete "a/b" = none ∧
    fsAB.Delete "a/b/" = some ⟨"a/b/", ErrTyp.notFound⟩ := by
  refine ⟨by decide, by decide, by decide⟩

end Axis2
